import Mathlib

/-!
Shallow embedding of the graph-analysis and signal-fusion core of
`backend/app/services/ml_pipeline.py` (classes `GraphAnalyzer` and
`MLPipeline._calculate_threat_score`), together with theorems checking the
natural-language specification against it.

Python floats are modelled as exact rationals (`ℚ`); the `networkx`
undirected graph (`nx.Graph`) is modelled as a node list in insertion order
plus an edge list in insertion order, each edge carrying a weight and a set
of connection types (modelled as a duplicate-free list).  `nx.shortest_path
(G, s, t, weight='weight')` is modelled as the minimum-total-weight simple
path, selected from an exhaustive enumeration of simple paths.
-/

/-- Edge payload: `weight` and the `types` set of connection-type tags. -/
structure EdgeData where
  weight : ℚ
  types : List String
deriving DecidableEq

/-- Undirected graph mirroring `nx.Graph`: nodes in insertion order, edges in
insertion order keyed by an unordered pair of endpoints. -/
structure Graph where
  nodes : List String
  edges : List (String × String × EdgeData)
deriving DecidableEq

/-- An edge record matches the unordered pair `{a, b}`. -/
def sameEdge (a b : String) (e : String × String × EdgeData) : Bool :=
  decide ((e.1 = a ∧ e.2.1 = b) ∨ (e.1 = b ∧ e.2.1 = a))

/-- Membership test mirroring `graph.has_node`. -/
def Graph.has_node (g : Graph) (a : String) : Bool :=
  decide (a ∈ g.nodes)

/-- Edge-existence test mirroring `graph.has_edge`. -/
def Graph.has_edge (g : Graph) (a b : String) : Bool :=
  g.edges.any (sameEdge a b)

/-- Node insertion as `nx.Graph.add_edge` performs it: append if absent. -/
def Graph.insertNode (g : Graph) (a : String) : Graph :=
  if a ∈ g.nodes then g else { g with nodes := g.nodes ++ [a] }

/-- Mirrors `self.graph.add_edge(source, target, weight=w, types={t})`:
inserts both endpoints (source first) and appends the new edge. -/
def Graph.add_edge (g : Graph) (a b : String) (w : ℚ) (t : String) : Graph :=
  let g1 := (g.insertNode a).insertNode b
  { g1 with edges := g1.edges ++ [(a, b, ⟨w, [t]⟩)] }

/-- Set insertion for the `types` tag set (`set.add`). -/
def insertType (t : String) (ts : List String) : List String :=
  if t ∈ ts then ts else ts ++ [t]

/-- Mirrors `self.graph[source][target]['weight'] += weight` together with
`['types'].add(connection_type)`: updates the unique matching edge record. -/
def updateMatch (a b : String) (w : ℚ) (t : String) :
    List (String × String × EdgeData) → List (String × String × EdgeData)
  | [] => []
  | e :: es =>
    if sameEdge a b e then
      (e.1, e.2.1, ⟨e.2.2.weight + w, insertType t e.2.2.types⟩) :: es
    else
      e :: updateMatch a b w t es

/-- Weight lookup `graph[a][b]['weight']`, returning 0 when the edge is
absent (the code only reads weights of existing edges). -/
def Graph.edgeWeight (g : Graph) (a b : String) : ℚ :=
  match g.edges.find? (sameEdge a b) with
  | some e => e.2.2.weight
  | none => 0

/-- Adjacency sequence of `a` in edge-insertion order (`nx` neighbor view). -/
def Graph.neighbors (g : Graph) (a : String) : List String :=
  g.edges.filterMap fun e =>
    if e.1 = a then some e.2.1 else if e.2.1 = a then some e.1 else none

/-- Sum of `graph[p[i]][p[i+1]]['weight']` over the consecutive pairs of a
path, as computed in `detect_lateral_movement`. -/
def Graph.pathWeight (g : Graph) : List String → ℚ
  | a :: b :: rest => g.edgeWeight a b + g.pathWeight (b :: rest)
  | _ => 0

/-- Every consecutive pair of the list is an edge of the graph. -/
def Graph.chainB (g : Graph) : List String → Bool
  | a :: b :: rest => g.has_edge a b && g.chainB (b :: rest)
  | _ => true

/-- Boolean recogniser for a simple path from `s` to `t`: starts at `s`,
ends at `t`, consecutive vertices are edges, no repeated vertex, and all
vertices are graph nodes. -/
def Graph.isSimplePathB (g : Graph) (s t : String) (p : List String) : Bool :=
  decide (p.head? = some s) && decide (p.getLast? = some t) &&
    g.chainB p && decide p.Nodup && p.all (fun x => decide (x ∈ g.nodes))

/-- All sequences of length at most `n` over the alphabet `xs`. -/
def seqs (xs : List String) : ℕ → List (List String)
  | 0 => [[]]
  | n + 1 => [] :: xs.flatMap fun x => (seqs xs n).map (x :: ·)

/-- Exhaustive enumeration of the simple paths from `s` to `t`. -/
def Graph.simple_paths (g : Graph) (s t : String) : List (List String) :=
  (seqs g.nodes g.nodes.length).filter (g.isSimplePathB s t)

/-- First minimiser of `f` over `best :: rest`. -/
def selectMin (f : List String → ℚ) : List String → List (List String) → List String
  | best, [] => best
  | best, p :: ps => if f p < f best then selectMin f p ps else selectMin f best ps

/-- Model of `nx.shortest_path(G, s, t, weight='weight')`: a simple path of
minimum total edge weight. -/
def Graph.shortest_path (g : Graph) (s t : String) : List String :=
  match g.simple_paths s t with
  | [] => []
  | p :: ps => selectMin g.pathWeight p ps

/-- Model of `nx.has_path(G, s, t)` for nodes `s`, `t`. -/
def Graph.has_path (g : Graph) (s t : String) : Bool :=
  !(g.simple_paths s t).isEmpty

/-- Mutable state of a `GraphAnalyzer` object: the graph and the
`is_initialized` flag (set to `True` by `initialize`). -/
structure GState where
  graph : Graph
  is_initialized : Bool
deriving DecidableEq

/-- Mirrors `GraphAnalyzer.add_connection(source, target, connection_type,
weight)`: no-op before initialisation, otherwise add the weight to an
existing edge (recording the connection type) or create the edge. -/
def add_connection (st : GState) (source target connection_type : String)
    (weight : ℚ) : GState :=
  if !st.is_initialized then st
  else if st.graph.has_edge source target then
    { st with graph :=
        { st.graph with
          edges := updateMatch source target weight connection_type st.graph.edges } }
  else
    { st with graph := st.graph.add_edge source target weight connection_type }

/-- Result dictionary of `detect_lateral_movement`; `path_length` and
`total_weight` are `none` on the no-path / guard branches, where the code
omits those keys. -/
structure LMResult where
  risk_score : ℚ
  path : List String
  is_suspicious : Bool
  path_length : Option ℕ
  total_weight : Option ℚ
deriving DecidableEq

/-- The `{"risk_score": 0.0, "path": [], "is_suspicious": False}` return. -/
def noMovement : LMResult := ⟨0, [], false, none, none⟩

/-- Mirrors `GraphAnalyzer.detect_lateral_movement(source, target)`. -/
def detect_lateral_movement (st : GState) (source target : String) : LMResult :=
  if !st.is_initialized || !st.graph.has_node source || !st.graph.has_node target then
    noMovement
  else if st.graph.has_path source target then
    let path := st.graph.shortest_path source target
    let path_length : ℕ := path.length - 1
    let total_weight : ℚ := st.graph.pathWeight path
    let risk_score : ℚ := min 1 ((path_length * total_weight) / 10)
    ⟨risk_score, path, decide (risk_score > 7 / 10), some path_length, some total_weight⟩
  else
    noMovement

/-- One entry of the `get_attack_paths` result list: `source`, `target`,
and the spread `detect_lateral_movement` dictionary. -/
structure AttackPathEntry where
  source : String
  target : String
  risk_score : ℚ
  path : List String
  is_suspicious : Bool
  path_length : Option ℕ
  total_weight : Option ℚ
deriving DecidableEq

/-- Enumeration of the ordered pairs `(nodes[i], nodes[j])` with `i < j`. -/
def pairsOf : List String → List (String × String)
  | [] => []
  | x :: xs => (xs.map fun y => (x, y)) ++ pairsOf xs

/-- The unsorted candidate list built by the double loop of
`get_attack_paths`: one entry per enumerated pair whose risk score exceeds
the threshold. -/
def attack_path_candidates (st : GState) (risk_threshold : ℚ) :
    List AttackPathEntry :=
  (pairsOf st.graph.nodes).filterMap fun pr =>
    let r := detect_lateral_movement st pr.1 pr.2
    if r.risk_score > risk_threshold then
      some ⟨pr.1, pr.2, r.risk_score, r.path, r.is_suspicious, r.path_length,
        r.total_weight⟩
    else none

/-- Descending-risk comparison used to model the stable
`sorted(attack_paths, key=..., reverse=True)`. -/
def riskGE (x y : AttackPathEntry) : Prop :=
  y.risk_score ≤ x.risk_score

instance : DecidableRel riskGE := fun x y =>
  inferInstanceAs (Decidable (y.risk_score ≤ x.risk_score))

instance : IsTotal AttackPathEntry riskGE :=
  ⟨fun a b => le_total b.risk_score a.risk_score⟩

instance : IsTrans AttackPathEntry riskGE :=
  ⟨fun _ _ _ h1 h2 => le_trans h2 h1⟩

/-- Mirrors `GraphAnalyzer.get_attack_paths(risk_threshold)`. -/
def get_attack_paths (st : GState) (risk_threshold : ℚ) : List AttackPathEntry :=
  if !st.is_initialized then []
  else List.insertionSort riskGE (attack_path_candidates st risk_threshold)

/-- Input dictionary of `MLPipeline._calculate_threat_score`: the optional
`anomaly_detection`, `threat_classification` (label and confidence) and
`graph_analysis` results. -/
structure AnalysisResults where
  anomaly_score : Option ℚ
  classification : Option (String × ℚ)
  graph_risk : Option ℚ
deriving DecidableEq

/-- Mirrors `MLPipeline._calculate_threat_score(results)` with weights
`{anomaly: 0.3, classification: 0.4, graph: 0.3}`. -/
def calculate_threat_score (r : AnalysisResults) : ℚ :=
  let s1 : ℚ :=
    match r.anomaly_score with
    | some a => a * (3 / 10)
    | none => 0
  let s2 : ℚ :=
    match r.classification with
    | some (label, confidence) =>
      if label = "malicious" then confidence * (4 / 10)
      else if label = "suspicious" then confidence * (1 / 2) * (4 / 10)
      else 0
    | none => 0
  let s3 : ℚ :=
    match r.graph_risk with
    | some gr => gr * (3 / 10)
    | none => 0
  min 1 (s1 + s2 + s3)

/-- The spec's `SignalFusion.Fuse` view of `_calculate_threat_score`: all
three signals present. -/
def fuse (anomaly : ℚ) (label : String) (confidence : ℚ) (graphRisk : ℚ) : ℚ :=
  calculate_threat_score ⟨some anomaly, some (label, confidence), some graphRisk⟩

/-- Modelled from the spec: the edge-cost function `1 / (1 + edge.weight)`
which the spec attributes to the shortest-path selection. -/
def spec_edge_cost (w : ℚ) : ℚ := 1 / (1 + w)

/-- Modelled from the spec: total claimed cost of a path under
`spec_edge_cost`. -/
def spec_path_cost (g : Graph) : List String → ℚ
  | a :: b :: rest => spec_edge_cost (g.edgeWeight a b) + spec_path_cost g (b :: rest)
  | _ => 0

/-- Modelled from the spec: comparison of character lists by code point,
the order underlying Python string comparison. -/
def charListLt : List Char → List Char → Bool
  | [], [] => false
  | [], _ :: _ => true
  | _ :: _, [] => false
  | c :: cs, d :: ds =>
    if c.toNat < d.toNat then true
    else if d.toNat < c.toNat then false
    else charListLt cs ds

/-- Modelled from the spec: the "(source, target) lexicographic order" on
asset identifiers that the spec claims breaks risk-score ties. -/
def strLtB (x y : String) : Bool := charListLt x.data y.data

/-- Fresh analyzer after `GraphAnalyzer()` plus `initialize()`. -/
def g0 : GState := ⟨⟨[], []⟩, true⟩

/-- The spec's end-to-end scenario graph: edges A–B (weight 3, tag "login")
and B–C (weight 2, tag "file-transfer"). -/
def stC1 : GState :=
  add_connection (add_connection g0 "A" "B" "login" 3) "B" "C" "file-transfer" 2

/-- Triangle graph: a heavy direct edge A–B (weight 10) and a light detour
A–C–B (weights 1 and 1). -/
def stH : GState :=
  add_connection (add_connection (add_connection g0 "A" "B" "t" 10) "A" "C" "t" 1)
    "C" "B" "t" 1

/-- Two disconnected edges C–D and A–B of equal weight 4, with C–D inserted
first, so that the two attack-path entries tie on risk score. -/
def stTie : GState :=
  add_connection (add_connection g0 "C" "D" "x" 4) "A" "B" "y" 4

/-- Analyzer holding one edge A–B of weight 1 with recorded type "t". -/
def stFix : GState := add_connection g0 "A" "B" "t" 1

/-! ### Helper lemmas about the path machinery -/

theorem selectMin_mem (f : List String → ℚ) :
    ∀ (best : List String) (l : List (List String)), selectMin f best l ∈ best :: l := by
  intro best l
  induction l generalizing best with
  | nil => simp [selectMin]
  | cons p ps ih =>
    simp only [selectMin]
    split
    · have := ih p
      simp only [List.mem_cons] at this ⊢
      tauto
    · have := ih best
      simp only [List.mem_cons] at this ⊢
      tauto

theorem selectMin_le (f : List String → ℚ) :
    ∀ (best : List String) (l : List (List String)) (x : List String),
      x ∈ best :: l → f (selectMin f best l) ≤ f x := by
  intro best l
  induction l generalizing best with
  | nil =>
    intro x hx
    simp only [List.mem_cons, List.not_mem_nil, or_false] at hx
    simp [selectMin, hx]
  | cons p ps ih =>
    intro x hx
    simp only [List.mem_cons] at hx
    simp only [selectMin]
    split
    · rename_i hlt
      rcases hx with hx | hx | hx
      · rw [hx]
        exact le_trans (ih p p (List.mem_cons_self p ps)) (le_of_lt hlt)
      · rw [hx]
        exact ih p p (List.mem_cons_self p ps)
      · exact ih p x (List.mem_cons_of_mem p hx)
    · rename_i hge
      rcases hx with hx | hx | hx
      · rw [hx]
        exact ih best best (List.mem_cons_self best ps)
      · rw [hx]
        exact le_trans (ih best best (List.mem_cons_self best ps)) (not_lt.mp hge)
      · exact ih best x (List.mem_cons_of_mem best hx)

theorem mem_seqs {xs : List String} :
    ∀ {n : ℕ} {p : List String}, p.length ≤ n → (∀ x ∈ p, x ∈ xs) → p ∈ seqs xs n := by
  intro n
  induction n with
  | zero =>
    intro p hlen _
    have : p = [] := List.length_eq_zero.mp (Nat.le_zero.mp hlen)
    simp [this, seqs]
  | succ n ih =>
    intro p hlen hmem
    cases p with
    | nil => simp [seqs]
    | cons x q =>
      simp only [seqs, List.mem_cons, List.mem_flatMap, List.mem_map]
      right
      refine ⟨x, hmem x (List.mem_cons_self x q), q, ?_, rfl⟩
      exact ih (Nat.le_of_succ_le_succ (by simpa using hlen))
        (fun y hy => hmem y (List.mem_cons_of_mem x hy))

theorem length_le_of_nodup_subset {p xs : List String}
    (hnd : p.Nodup) (hsub : ∀ x ∈ p, x ∈ xs) : p.length ≤ xs.length := by
  calc p.length = p.toFinset.card := (List.toFinset_card_of_nodup hnd).symm
    _ ≤ xs.toFinset.card := by
        apply Finset.card_le_card
        intro x hx
        rw [List.mem_toFinset] at hx ⊢
        exact hsub x hx
    _ ≤ xs.length := xs.toFinset_card_le

theorem isSimplePathB_parts {g : Graph} {s t : String} {p : List String}
    (hp : g.isSimplePathB s t p = true) :
    p.head? = some s ∧ p.getLast? = some t ∧ g.chainB p = true ∧ p.Nodup ∧
      ∀ x ∈ p, x ∈ g.nodes := by
  simp only [Graph.isSimplePathB, Bool.and_eq_true, decide_eq_true_eq,
    List.all_eq_true] at hp
  exact ⟨hp.1.1.1.1, hp.1.1.1.2, hp.1.1.2, hp.1.2, fun x hx => by
    have := hp.2 x hx
    simpa using this⟩

theorem simple_paths_complete {g : Graph} {s t : String} {p : List String}
    (hp : g.isSimplePathB s t p = true) : p ∈ g.simple_paths s t := by
  obtain ⟨_, _, _, hnd, hsub⟩ := isSimplePathB_parts hp
  exact List.mem_filter.mpr ⟨mem_seqs (length_le_of_nodup_subset hnd hsub) hsub, hp⟩

theorem simple_paths_sound {g : Graph} {s t : String} {p : List String}
    (hp : p ∈ g.simple_paths s t) : g.isSimplePathB s t p = true :=
  (List.mem_filter.mp hp).2

theorem shortest_path_min {g : Graph} {s t : String} {p : List String}
    (hp : g.isSimplePathB s t p = true) :
    g.pathWeight (g.shortest_path s t) ≤ g.pathWeight p := by
  have hmem : p ∈ g.simple_paths s t := simple_paths_complete hp
  rcases hsp : g.simple_paths s t with _ | ⟨q, qs⟩
  · rw [hsp] at hmem
    cases hmem
  · rw [hsp] at hmem
    simp only [Graph.shortest_path, hsp]
    exact selectMin_le g.pathWeight q qs p hmem

theorem shortest_path_mem {g : Graph} {s t : String}
    (h : g.simple_paths s t ≠ []) : g.shortest_path s t ∈ g.simple_paths s t := by
  rcases hsp : g.simple_paths s t with _ | ⟨q, qs⟩
  · exact absurd hsp h
  · simp only [Graph.shortest_path, hsp]
    exact selectMin_mem g.pathWeight q qs

theorem isSimplePathB_self {g : Graph} {a : String} {p : List String}
    (hp : g.isSimplePathB a a p = true) : p = [a] := by
  obtain ⟨hhead, hlast, _, hnd, _⟩ := isSimplePathB_parts hp
  cases p with
  | nil => simp at hhead
  | cons x q =>
    simp only [List.head?_cons, Option.some.injEq] at hhead
    subst hhead
    cases q with
    | nil => rfl
    | cons y r =>
      rw [List.getLast?_cons_cons] at hlast
      have hmem : x ∈ y :: r := List.mem_of_mem_getLast? (by rw [hlast]; rfl)
      simp only [List.nodup_cons] at hnd
      exact absurd hmem hnd.1

theorem singleton_isSimplePathB {g : Graph} {a : String} (ha : a ∈ g.nodes) :
    g.isSimplePathB a a [a] = true := by
  simp [Graph.isSimplePathB, Graph.chainB, ha]

theorem shortest_path_self {g : Graph} {a : String} (ha : a ∈ g.nodes) :
    g.shortest_path a a = [a] := by
  have hmem : [a] ∈ g.simple_paths a a := simple_paths_complete (singleton_isSimplePathB ha)
  have hne : g.simple_paths a a ≠ [] := fun h => by simp [h] at hmem
  exact isSimplePathB_self (simple_paths_sound (shortest_path_mem hne))

theorem has_path_self {g : Graph} {a : String} (ha : a ∈ g.nodes) :
    g.has_path a a = true := by
  have hmem : [a] ∈ g.simple_paths a a := simple_paths_complete (singleton_isSimplePathB ha)
  have hne : g.simple_paths a a ≠ [] := fun h => by simp [h] at hmem
  simp [Graph.has_path, List.isEmpty_iff, hne]

theorem risk_score_le_one (st : GState) (s t : String) :
    (detect_lateral_movement st s t).risk_score ≤ 1 := by
  unfold detect_lateral_movement
  split
  · simp [noMovement]
  · split
    · exact min_le_left _ _
    · simp [noMovement]

/-! ### Helper lemmas about graph mutation -/

theorem sameEdge_keys (a b : String) (x y : String) (d d' : EdgeData) :
    sameEdge a b (x, y, d') = sameEdge a b (x, y, d) := by
  simp [sameEdge]

theorem sameEdge_self (a b : String) (d : EdgeData) : sameEdge a b (a, b, d) = true := by
  simp [sameEdge]

theorem find?_updateMatch (a b : String) (w : ℚ) (t : String) (l : List (String × String × EdgeData)) :
    (updateMatch a b w t l).find? (sameEdge a b)
      = (l.find? (sameEdge a b)).map
          (fun e => (e.1, e.2.1, ⟨e.2.2.weight + w, insertType t e.2.2.types⟩)) := by
  induction l with
  | nil => simp [updateMatch]
  | cons e es ih =>
    by_cases h : sameEdge a b e = true
    · have h' : sameEdge a b (e.1, e.2.1,
          (⟨e.2.2.weight + w, insertType t e.2.2.types⟩ : EdgeData)) = true := by
        rw [sameEdge_keys a b e.1 e.2.1 e.2.2]
        simpa using h
      simp [updateMatch, h, List.find?_cons_of_pos, h']
    · have hb : sameEdge a b e = false := by simpa using h
      simp [updateMatch, hb, List.find?_cons_of_neg, ih]

theorem not_matching_of_has_edge_false {g : Graph} {a b : String}
    (h : g.has_edge a b = false) : ∀ e ∈ g.edges, sameEdge a b e = false := by
  intro e he
  simp only [Graph.has_edge, List.any_eq_false] at h
  simpa using h e he

theorem find?_of_has_edge_true {g : Graph} {a b : String}
    (h : g.has_edge a b = true) : ∃ e, g.edges.find? (sameEdge a b) = some e := by
  rcases hf : g.edges.find? (sameEdge a b) with _ | e
  · rw [List.find?_eq_none] at hf
    simp only [Graph.has_edge, List.any_eq_true] at h
    obtain ⟨e, he, hm⟩ := h
    exact absurd hm (by simpa using hf e he)
  · exact ⟨e, rfl⟩

theorem edgeWeight_updateMatch {g : Graph} {a b : String} (w : ℚ) (t : String)
    (h : g.has_edge a b = true) :
    (Graph.mk g.nodes (updateMatch a b w t g.edges)).edgeWeight a b
      = g.edgeWeight a b + w := by
  obtain ⟨e, hf⟩ := find?_of_has_edge_true h
  simp [Graph.edgeWeight, find?_updateMatch, hf]

theorem updateMatch_append_left {a b : String} {w : ℚ} {t : String}
    {l l2 : List (String × String × EdgeData)}
    (h : ∀ e ∈ l, sameEdge a b e = false) :
    updateMatch a b w t (l ++ l2) = l ++ updateMatch a b w t l2 := by
  induction l with
  | nil => simp
  | cons e es ih =>
    have he : sameEdge a b e = false := h e (List.mem_cons_self e es)
    simp only [List.cons_append, updateMatch, he, Bool.false_eq_true, if_false,
      List.cons.injEq, true_and]
    exact ih fun x hx => h x (List.mem_cons_of_mem e hx)

theorem find?_append_left_none {a b : String} {l l2 : List (String × String × EdgeData)}
    (h : ∀ e ∈ l, sameEdge a b e = false) :
    (l ++ l2).find? (sameEdge a b) = l2.find? (sameEdge a b) := by
  induction l with
  | nil => simp
  | cons e es ih =>
    have he : sameEdge a b e = false := h e (List.mem_cons_self e es)
    rw [List.cons_append, List.find?_cons_of_neg _ (by simp [he])]
    exact ih fun x hx => h x (List.mem_cons_of_mem e hx)

theorem insertNode_edges (g : Graph) (a : String) : (g.insertNode a).edges = g.edges := by
  unfold Graph.insertNode
  split <;> rfl

theorem add_edge_edges (g : Graph) (a b : String) (w : ℚ) (t : String) :
    (g.add_edge a b w t).edges = g.edges ++ [(a, b, ⟨w, [t]⟩)] := by
  simp [Graph.add_edge, insertNode_edges]

theorem mem_insertNode_self (g : Graph) (a : String) : a ∈ (g.insertNode a).nodes := by
  unfold Graph.insertNode
  split
  · assumption
  · simp

theorem mem_insertNode_of_mem (g : Graph) (a : String) {x : String}
    (h : x ∈ g.nodes) : x ∈ (g.insertNode a).nodes := by
  unfold Graph.insertNode
  split
  · exact h
  · simp [h]

theorem neighbors_no_match {g : Graph} {a b : String}
    (h : ∀ e ∈ g.edges, sameEdge a b e = false) : b ∉ g.neighbors a := by
  intro hmem
  simp only [Graph.neighbors, List.mem_filterMap] at hmem
  obtain ⟨e, he, hf⟩ := hmem
  have hne := h e he
  by_cases h1 : e.1 = a
  · simp only [h1, if_true] at hf
    rw [Option.some_inj] at hf
    simp [sameEdge, h1, hf] at hne
  · by_cases h2 : e.2.1 = a
    · simp only [h1, if_false, h2, if_true] at hf
      rw [Option.some_inj] at hf
      simp [sameEdge, h1, h2, hf] at hne
    · simp [h1, h2] at hf

/-! ### Helper lemmas about pair enumeration and sorting -/

theorem mem_pairsOf {l : List String} {a b : String} (h : (a, b) ∈ pairsOf l) :
    a ∈ l ∧ b ∈ l := by
  induction l with
  | nil => simp [pairsOf] at h
  | cons x xs ih =>
    simp only [pairsOf, List.mem_append, List.mem_map] at h
    rcases h with ⟨y, hy, heq⟩ | h
    · injection heq with h1 h2
      rw [← h1, ← h2]
      exact ⟨List.mem_cons_self x xs, List.mem_cons_of_mem x hy⟩
    · have := ih h
      exact ⟨List.mem_cons_of_mem x this.1, List.mem_cons_of_mem x this.2⟩

theorem count_map_pair (x : String) (xs : List String) (a b : String) :
    (xs.map fun y => (x, y)).count (a, b) = if a = x then xs.count b else 0 := by
  induction xs with
  | nil => simp
  | cons y ys ih =>
    simp only [List.map_cons, List.count_cons, ih, beq_iff_eq, Prod.mk.injEq]
    by_cases hax : a = x
    · subst hax
      by_cases hby : b = y
      · subst hby
        simp
      · have hyb : ¬ y = b := fun h => hby h.symm
        simp [hyb]
    · have hxa : ¬ x = a := fun h => hax h.symm
      simp [hax, hxa]

theorem count_pairsOf {l : List String} (hnd : l.Nodup) {a b : String}
    (hab : a ≠ b) (ha : a ∈ l) (hb : b ∈ l) :
    (pairsOf l).count (a, b) + (pairsOf l).count (b, a) = 1 := by
  induction l with
  | nil => simp at ha
  | cons x xs ih =>
    simp only [List.nodup_cons] at hnd
    obtain ⟨hx, hndxs⟩ := hnd
    simp only [pairsOf, List.count_append, count_map_pair]
    by_cases hax : a = x
    · subst hax
      have hbxs : b ∈ xs := by
        rcases List.mem_cons.mp hb with h | h
        · exact (hab h.symm).elim
        · exact h
      have h1 : xs.count b = 1 := List.count_eq_one_of_mem hndxs hbxs
      have h2 : (pairsOf xs).count (a, b) = 0 := by
        rw [List.count_eq_zero]
        intro hm
        exact hx (mem_pairsOf hm).1
      have h3 : (pairsOf xs).count (b, a) = 0 := by
        rw [List.count_eq_zero]
        intro hm
        exact hx (mem_pairsOf hm).2
      have h4 : ¬ b = a := fun h => hab h.symm
      simp [h1, h2, h3, h4]
    · by_cases hbx : b = x
      · subst hbx
        have haxs : a ∈ xs := by
          rcases List.mem_cons.mp ha with h | h
          · exact (hax h).elim
          · exact h
        have h1 : xs.count a = 1 := List.count_eq_one_of_mem hndxs haxs
        have h2 : (pairsOf xs).count (a, b) = 0 := by
          rw [List.count_eq_zero]
          intro hm
          exact hx (mem_pairsOf hm).2
        have h3 : (pairsOf xs).count (b, a) = 0 := by
          rw [List.count_eq_zero]
          intro hm
          exact hx (mem_pairsOf hm).1
        simp [h1, h2, h3, hax]
      · have haxs : a ∈ xs := by
          rcases List.mem_cons.mp ha with h | h
          · exact (hax h).elim
          · exact h
        have hbxs : b ∈ xs := by
          rcases List.mem_cons.mp hb with h | h
          · exact (hbx h).elim
          · exact h
        simp only [hax, hbx, if_false]
        have := ih hndxs haxs hbxs
        omega

theorem candidates_map_pairs (st : GState) (thr : ℚ) :
    (attack_path_candidates st thr).map (fun e => (e.source, e.target))
      = (pairsOf st.graph.nodes).filter
          (fun pr => decide ((detect_lateral_movement st pr.1 pr.2).risk_score > thr)) := by
  unfold attack_path_candidates
  induction pairsOf st.graph.nodes with
  | nil => simp
  | cons pr prs ih =>
    by_cases h : (detect_lateral_movement st pr.1 pr.2).risk_score > thr
    · simp [List.filterMap_cons, List.filter_cons, h, ih]
    · simp [List.filterMap_cons, List.filter_cons, h, ih]

theorem detect_success_eq (st : GState) (s t : String)
    (hinit : st.is_initialized = true) (hs : st.graph.has_node s = true)
    (ht : st.graph.has_node t = true) (hpath : st.graph.has_path s t = true) :
    detect_lateral_movement st s t =
      ⟨min 1 ((((st.graph.shortest_path s t).length - 1 : ℕ)
          * st.graph.pathWeight (st.graph.shortest_path s t)) / 10),
        st.graph.shortest_path s t,
        decide (min 1 ((((st.graph.shortest_path s t).length - 1 : ℕ)
          * st.graph.pathWeight (st.graph.shortest_path s t)) / 10) > 7 / 10),
        some ((st.graph.shortest_path s t).length - 1),
        some (st.graph.pathWeight (st.graph.shortest_path s t))⟩ := by
  unfold detect_lateral_movement
  rw [hinit, hs, ht, hpath]
  simp

theorem has_path_of_simple {g : Graph} {s t : String} {p : List String}
    (hp : g.isSimplePathB s t p = true) : g.has_path s t = true := by
  have hmem : p ∈ g.simple_paths s t := simple_paths_complete hp
  have hne : g.simple_paths s t ≠ [] := fun h => by simp [h] at hmem
  simp [Graph.has_path, List.isEmpty_iff, hne]

/-! ### Claim theorems -/

section RatArith

attribute [local semireducible] Rat.mul Rat.add Rat.inv Rat.sub

/-- C10: calling `add_connection` before `initialize` has run returns
normally and leaves the analyzer state completely unchanged: the
observation is silently dropped. -/
theorem add_connection_uninitialized (st : GState) (s t ty : String) (w : ℚ)
    (h : st.is_initialized = false) : add_connection st s t ty w = st := by
  simp [add_connection, h]

/-- Witness for C10 at a fresh, never-initialised analyzer. -/
theorem add_connection_uninitialized_inst :
    add_connection ⟨⟨[], []⟩, false⟩ "A" "B" "login" 1 = ⟨⟨[], []⟩, false⟩ :=
  add_connection_uninitialized ⟨⟨[], []⟩, false⟩ "A" "B" "login" 1 rfl

/-- C1: whenever both assets are known and connected, the risk score is
`min(1, pathLength * totalWeight / 10)` for the selected shortest path,
`isSuspicious` holds exactly when the risk score exceeds 0.7, and on the
spec's A–B(3)/B–C(2) scenario `Score(A, C)` reports path `[A, B, C]`,
`pathLength = 2`, `totalWeight = 5`, `riskScore = 1`, `isSuspicious`. -/
theorem detect_lateral_movement_formula (st : GState) (s t : String)
    (hinit : st.is_initialized = true) (hs : st.graph.has_node s = true)
    (ht : st.graph.has_node t = true) (hpath : st.graph.has_path s t = true) :
    ((detect_lateral_movement st s t).risk_score
        = min 1 ((((st.graph.shortest_path s t).length - 1 : ℕ)
            * st.graph.pathWeight (st.graph.shortest_path s t)) / 10)
      ∧ ((detect_lateral_movement st s t).is_suspicious = true
          ↔ (detect_lateral_movement st s t).risk_score > 7 / 10)
      ∧ (detect_lateral_movement st s t).path = st.graph.shortest_path s t
      ∧ (detect_lateral_movement st s t).path_length
          = some ((st.graph.shortest_path s t).length - 1)
      ∧ (detect_lateral_movement st s t).total_weight
          = some (st.graph.pathWeight (st.graph.shortest_path s t)))
    ∧ detect_lateral_movement stC1 "A" "C"
        = ⟨1, ["A", "B", "C"], true, some 2, some 5⟩ := by
  constructor
  · rw [detect_success_eq st s t hinit hs ht hpath]
    refine ⟨rfl, ?_, rfl, rfl, rfl⟩
    simp [decide_eq_true_eq]
  · decide

/-- Witness for C1: the general formula applied to the spec's scenario
graph at the pair (A, C). -/
theorem detect_lateral_movement_formula_inst :
    ((detect_lateral_movement stC1 "A" "C").risk_score
        = min 1 ((((stC1.graph.shortest_path "A" "C").length - 1 : ℕ)
            * stC1.graph.pathWeight (stC1.graph.shortest_path "A" "C")) / 10)
      ∧ ((detect_lateral_movement stC1 "A" "C").is_suspicious = true
          ↔ (detect_lateral_movement stC1 "A" "C").risk_score > 7 / 10)
      ∧ (detect_lateral_movement stC1 "A" "C").path = stC1.graph.shortest_path "A" "C"
      ∧ (detect_lateral_movement stC1 "A" "C").path_length
          = some ((stC1.graph.shortest_path "A" "C").length - 1)
      ∧ (detect_lateral_movement stC1 "A" "C").total_weight
          = some (stC1.graph.pathWeight (stC1.graph.shortest_path "A" "C")))
    ∧ detect_lateral_movement stC1 "A" "C"
        = ⟨1, ["A", "B", "C"], true, some 2, some 5⟩ :=
  detect_lateral_movement_formula stC1 "A" "C" (by decide) (by decide) (by decide)
    (by decide)

/-- C8: scoring an asset against itself always yields risk score 0 (the
self path `[a]` has zero edges, so `0 * 0 / 10 = 0`). -/
theorem detect_self_zero (st : GState) (a : String)
    (hinit : st.is_initialized = true) (ha : st.graph.has_node a = true) :
    (detect_lateral_movement st a a).risk_score = 0 := by
  have hmem : a ∈ st.graph.nodes := by
    simpa [Graph.has_node] using ha
  have hpath : st.graph.has_path a a = true := has_path_self hmem
  rw [detect_success_eq st a a hinit ha ha hpath, shortest_path_self hmem]
  simp [Graph.pathWeight]

/-- Witness for C8 at the spec scenario graph and asset A. -/
theorem detect_self_zero_inst : (detect_lateral_movement stC1 "A" "A").risk_score = 0 :=
  detect_self_zero stC1 "A" (by decide) (by decide)

/-- C2: with all three signals present, the fused score is
`min(1, 0.3*anomaly + classificationContribution + 0.3*graphRisk)` where a
`malicious` label contributes `confidence * 0.4`, a `suspicious` label
contributes `confidence * 0.5 * 0.4` and `benign` contributes nothing; in
particular `Fuse(0.9, {malicious, 0.8}, 0) = 0.59`. -/
theorem threat_score_formula (a conf g : ℚ) (label : String)
    (ha0 : 0 ≤ a) (ha1 : a ≤ 1) (hc0 : 0 ≤ conf) (hc1 : conf ≤ 1)
    (hg0 : 0 ≤ g) (hg1 : g ≤ 1)
    (hlabel : label = "benign" ∨ label = "suspicious" ∨ label = "malicious") :
    fuse a label conf g
        = min 1 (3 / 10 * a
            + (if label = "malicious" then conf * (4 / 10)
               else if label = "suspicious" then conf * (1 / 2) * (4 / 10) else 0)
            + 3 / 10 * g)
      ∧ fuse (9 / 10) "malicious" (8 / 10) 0 = 59 / 100 := by
  constructor
  · have hval : fuse a label conf g
        = min 1 (a * (3 / 10)
            + (if label = "malicious" then conf * (4 / 10)
               else if label = "suspicious" then conf * (1 / 2) * (4 / 10) else 0)
            + g * (3 / 10)) := rfl
    rw [hval]
    congr 1
    split_ifs <;> ring
  · decide

/-- Witness for C2 at the spec's worked example. -/
theorem threat_score_formula_inst :
    fuse (9 / 10) "malicious" (8 / 10) 0
        = min 1 (3 / 10 * (9 / 10)
            + (if ("malicious" : String) = "malicious" then (8 / 10 : ℚ) * (4 / 10)
               else if ("malicious" : String) = "suspicious" then (8 / 10 : ℚ) * (1 / 2) * (4 / 10) else 0)
            + 3 / 10 * 0)
      ∧ fuse (9 / 10) "malicious" (8 / 10) 0 = 59 / 100 :=
  threat_score_formula (9 / 10) (8 / 10) 0 "malicious" (by norm_num) (by norm_num)
    (by norm_num) (by norm_num) (by norm_num) (by norm_num) (Or.inr (Or.inr rfl))

/-- C7: the fused threat score is monotone in the anomaly score, in the
classification confidence (for a fixed label) and in the graph risk, and it
always lies in the interval [0, 1]. -/
theorem fuse_monotone_bounded (label : String) (a a' c c' g g' : ℚ)
    (ha0 : 0 ≤ a) (ha1 : a ≤ 1) (hb0 : 0 ≤ a') (hb1 : a' ≤ 1)
    (hc0 : 0 ≤ c) (hc1 : c ≤ 1) (hd0 : 0 ≤ c') (hd1 : c' ≤ 1)
    (hg0 : 0 ≤ g) (hg1 : g ≤ 1) (hh0 : 0 ≤ g') (hh1 : g' ≤ 1) :
    (a ≤ a' → fuse a label c g ≤ fuse a' label c g)
    ∧ (c ≤ c' → fuse a label c g ≤ fuse a label c' g)
    ∧ (g ≤ g' → fuse a label c g ≤ fuse a label c g')
    ∧ 0 ≤ fuse a label c g ∧ fuse a label c g ≤ 1 := by
  have hval : ∀ x y z : ℚ, fuse x label y z
      = min 1 (x * (3 / 10)
          + (if label = "malicious" then y * (4 / 10)
             else if label = "suspicious" then y * (1 / 2) * (4 / 10) else 0)
          + z * (3 / 10)) := fun x y z => rfl
  refine ⟨?_, ?_, ?_, ?_, ?_⟩
  · intro h
    rw [hval, hval]
    apply min_le_min le_rfl
    split_ifs <;> linarith
  · intro h
    rw [hval, hval]
    apply min_le_min le_rfl
    split_ifs <;> linarith
  · intro h
    rw [hval, hval]
    apply min_le_min le_rfl
    split_ifs <;> linarith
  · rw [hval]
    apply le_min (by norm_num)
    split_ifs <;> linarith
  · rw [hval]
    exact min_le_left _ _

/-- Witness for C7 with all six inputs at concrete values in [0, 1]. -/
theorem fuse_monotone_bounded_inst :
    ((1 : ℚ) / 4 ≤ 1 / 2 → fuse (1 / 4) "malicious" (1 / 3) (1 / 5)
        ≤ fuse (1 / 2) "malicious" (1 / 3) (1 / 5))
    ∧ ((1 : ℚ) / 3 ≤ 2 / 3 → fuse (1 / 4) "malicious" (1 / 3) (1 / 5)
        ≤ fuse (1 / 4) "malicious" (2 / 3) (1 / 5))
    ∧ ((1 : ℚ) / 5 ≤ 2 / 5 → fuse (1 / 4) "malicious" (1 / 3) (1 / 5)
        ≤ fuse (1 / 4) "malicious" (1 / 3) (2 / 5))
    ∧ 0 ≤ fuse (1 / 4) "malicious" (1 / 3) (1 / 5)
    ∧ fuse (1 / 4) "malicious" (1 / 3) (1 / 5) ≤ 1 :=
  fuse_monotone_bounded "malicious" (1 / 4) (1 / 2) (1 / 3) (2 / 3) (1 / 5) (2 / 5)
    (by norm_num) (by norm_num) (by norm_num) (by norm_num) (by norm_num) (by norm_num)
    (by norm_num) (by norm_num) (by norm_num) (by norm_num) (by norm_num) (by norm_num)

/-- C3 counterexample: on the triangle A–B (weight 10), A–C (1), C–B (1)
the code selects the light detour `[A, C, B]`, although the direct edge
`[A, B]` is a valid simple path with a strictly smaller cost under the
spec's claimed edge-cost function `1 / (1 + weight)`; the selected path
therefore does not minimise the claimed cost. -/
theorem shortest_path_cost_cex :
    (detect_lateral_movement stH "A" "B").path = ["A", "C", "B"]
    ∧ stH.graph.isSimplePathB "A" "B" ["A", "B"] = true
    ∧ spec_path_cost stH.graph ["A", "B"] < spec_path_cost stH.graph ["A", "C", "B"] := by
  decide

/-- C3 amended: the selected shortest path minimises the sum of the raw
edge weights (lower cumulative weight is preferred), and it is the path
reported by `detect_lateral_movement`. -/
theorem shortest_path_minimizes (g : Graph) (s t : String) (p : List String)
    (hp : g.isSimplePathB s t p = true) :
    g.pathWeight (g.shortest_path s t) ≤ g.pathWeight p
    ∧ ∀ st : GState, st.graph = g → st.is_initialized = true →
        g.has_node s = true → g.has_node t = true →
        (detect_lateral_movement st s t).path = g.shortest_path s t := by
  constructor
  · have hmem : p ∈ g.simple_paths s t := simple_paths_complete hp
    rcases hsp : g.simple_paths s t with _ | ⟨q, qs⟩
    · rw [hsp] at hmem
      cases hmem
    · rw [hsp] at hmem
      simp only [Graph.shortest_path, hsp]
      exact selectMin_le g.pathWeight q qs p hmem
  · intro st hg hinit hs ht
    subst hg
    rw [detect_success_eq st s t hinit hs ht (has_path_of_simple hp)]

/-- Witness for C3 amended: on the triangle graph the selected path
`[A, C, B]` (weight 2) is no heavier than the direct candidate `[A, B]`
(weight 10), and `detect_lateral_movement` reports it. -/
theorem shortest_path_minimizes_inst :
    stH.graph.pathWeight (stH.graph.shortest_path "A" "B")
        ≤ stH.graph.pathWeight ["A", "B"]
    ∧ ∀ st : GState, st.graph = stH.graph → st.is_initialized = true →
        stH.graph.has_node "A" = true → stH.graph.has_node "B" = true →
        (detect_lateral_movement st "A" "B").path = stH.graph.shortest_path "A" "B" :=
  shortest_path_minimizes stH.graph "A" "B" ["A", "B"] (by decide)

/-- C4 counterexample: `add_connection` accepts an empty source identifier:
the call `add_connection(g0, "", "B", "t", 1)` does not fail and changes
the graph, inserting the empty-string asset and a weighted edge, instead of
rejecting the observation with `InvalidAssetError`. -/
theorem add_connection_empty_id_cex :
    add_connection g0 "" "B" "t" 1 ≠ g0
    ∧ (add_connection g0 "" "B" "t" 1).graph.nodes = ["", "B"]
    ∧ (add_connection g0 "" "B" "t" 1).graph.edgeWeight "" "B" = 1 := by
  decide

/-- C4 amended: `add_connection` validates nothing: on an initialised
analyzer every call — empty identifiers included — inserts both assets if
new and adds `weight` to the edge (creating it with weight `w` when
absent); no error is ever raised and no call is rejected. -/
theorem add_connection_no_validation (st : GState) (a b t : String) (w : ℚ)
    (hinit : st.is_initialized = true)
    (hwf : ∀ e ∈ st.graph.edges, e.1 ∈ st.graph.nodes ∧ e.2.1 ∈ st.graph.nodes) :
    (add_connection st a b t w).is_initialized = true
    ∧ a ∈ (add_connection st a b t w).graph.nodes
    ∧ b ∈ (add_connection st a b t w).graph.nodes
    ∧ (add_connection st a b t w).graph.edgeWeight a b
        = (if st.graph.has_edge a b = true then st.graph.edgeWeight a b + w else w) := by
  by_cases hedge : st.graph.has_edge a b = true
  · have hst : add_connection st a b t w
        = ⟨⟨st.graph.nodes, updateMatch a b w t st.graph.edges⟩, st.is_initialized⟩ := by
      simp [add_connection, hinit, hedge]
    obtain ⟨e, hf⟩ := find?_of_has_edge_true hedge
    have hmem := List.mem_of_find?_eq_some hf
    have hmatch : sameEdge a b e = true := List.find?_some hf
    have hends := hwf e hmem
    simp only [sameEdge, decide_eq_true_eq] at hmatch
    refine ⟨by rw [hst]; exact hinit, ?_, ?_, ?_⟩
    · rw [hst]
      rcases hmatch with ⟨h1, _⟩ | ⟨_, h2⟩
      · exact h1 ▸ hends.1
      · exact h2 ▸ hends.2
    · rw [hst]
      rcases hmatch with ⟨_, h2⟩ | ⟨h1, _⟩
      · exact h2 ▸ hends.2
      · exact h1 ▸ hends.1
    · rw [hst, if_pos hedge]
      exact edgeWeight_updateMatch w t hedge
  · have hedge' : st.graph.has_edge a b = false := by
      simpa using hedge
    have hnm := not_matching_of_has_edge_false hedge'
    have hst : add_connection st a b t w
        = ⟨st.graph.add_edge a b w t, st.is_initialized⟩ := by
      simp [add_connection, hinit, hedge']
    have hnodes : (st.graph.add_edge a b w t).nodes
        = ((st.graph.insertNode a).insertNode b).nodes := by
      simp [Graph.add_edge, insertNode_edges]
    refine ⟨by rw [hst]; exact hinit, ?_, ?_, ?_⟩
    · rw [hst]
      show a ∈ (st.graph.add_edge a b w t).nodes
      rw [hnodes]
      exact mem_insertNode_of_mem _ b (mem_insertNode_self st.graph a)
    · rw [hst]
      show b ∈ (st.graph.add_edge a b w t).nodes
      rw [hnodes]
      exact mem_insertNode_self _ b
    · rw [hst, if_neg hedge]
      show (st.graph.add_edge a b w t).edgeWeight a b = w
      unfold Graph.edgeWeight
      rw [add_edge_edges, find?_append_left_none hnm]
      simp [sameEdge]

/-- Witness for C4 amended: a call with an empty source identifier on the
fresh analyzer succeeds and creates the edge with weight 1. -/
theorem add_connection_no_validation_inst :
    (add_connection g0 "" "B" "t" 1).is_initialized = true
    ∧ "" ∈ (add_connection g0 "" "B" "t" 1).graph.nodes
    ∧ "B" ∈ (add_connection g0 "" "B" "t" 1).graph.nodes
    ∧ (add_connection g0 "" "B" "t" 1).graph.edgeWeight "" "B"
        = (if g0.graph.has_edge "" "B" = true then g0.graph.edgeWeight "" "B" + 1 else 1) :=
  add_connection_no_validation g0 "" "B" "t" 1 (by decide) (by simp [g0])

/-- C5 counterexample: no revision counter exists on the analyzer state:
adding weight 0 to an existing edge whose connection type is already
recorded is a fixed point of `add_connection`, so no natural-number
observable of the state can strictly increase on every call. -/
theorem no_revision_counter_cex :
    add_connection stFix "A" "B" "t" 0 = stFix
    ∧ ¬ ∃ rev : GState → ℕ, ∀ (s : GState) (a b t : String) (w : ℚ),
        rev s < rev (add_connection s a b t w) := by
  have hfix : add_connection stFix "A" "B" "t" 0 = stFix := by decide
  refine ⟨hfix, ?_⟩
  rintro ⟨rev, h⟩
  have hlt := h stFix "A" "B" "t" 0
  rw [hfix] at hlt
  exact lt_irrefl _ hlt

/-- C5 amended: there is no cache and no revision counter; `get_attack_paths`
recomputes from the current graph on every call, so a result computed
before an `add_connection` is never served afterwards: after `Discover(0.5)`
returns the empty list, adding the edge A–B (weight 10) makes the next
`Discover(0.5)` report the new A–B path with risk score 1. -/
theorem discover_recomputes :
    get_attack_paths g0 (1 / 2) = []
    ∧ ((get_attack_paths (add_connection g0 "A" "B" "login" 10) (1 / 2)).map
        fun e => (e.source, e.target, e.risk_score)) = [("A", "B", 1)] := by
  decide

/-- C6 counterexample: with C–D (weight 4) inserted before A–B (weight 4),
both pairs tie at risk score 0.4 and `get_attack_paths` returns the C–D
entry first, although (A, B) precedes (C, D) in the lexicographic order
the spec claims breaks ties. -/
theorem attack_paths_tie_order_cex :
    ((get_attack_paths stTie (3 / 10)).map fun e => (e.source, e.target, e.risk_score))
      = [("C", "D", 2 / 5), ("A", "B", 2 / 5)]
    ∧ strLtB "A" "C" = true := by
  decide

/-- C6 amended: `get_attack_paths` returns one entry per enumerated pair of
distinct known assets whose risk score exceeds the threshold (each
unordered pair is enumerated exactly once), sorted by risk score in
descending order with ties kept in node-insertion enumeration order
(stable sort), and any threshold above 1 yields the empty list. -/
theorem get_attack_paths_spec (st : GState) (thr : ℚ)
    (hinit : st.is_initialized = true) (hnd : st.graph.nodes.Nodup) :
    ((get_attack_paths st thr).map fun e => (e.source, e.target)).Perm
        ((pairsOf st.graph.nodes).filter
          (fun pr => decide ((detect_lateral_movement st pr.1 pr.2).risk_score > thr)))
    ∧ List.Sorted riskGE (get_attack_paths st thr)
    ∧ (∀ a b : String, a ≠ b → a ∈ st.graph.nodes → b ∈ st.graph.nodes →
        (pairsOf st.graph.nodes).count (a, b) + (pairsOf st.graph.nodes).count (b, a) = 1)
    ∧ (∀ st' : GState, get_attack_paths st' (11 / 10) = []) := by
  have hsort : get_attack_paths st thr
      = List.insertionSort riskGE (attack_path_candidates st thr) := by
    simp [get_attack_paths, hinit]
  refine ⟨?_, ?_, ?_, ?_⟩
  · rw [hsort, ← candidates_map_pairs]
    exact (List.perm_insertionSort riskGE _).map _
  · rw [hsort]
    exact List.sorted_insertionSort riskGE _
  · intro a b hab ha hb
    exact count_pairsOf hnd hab ha hb
  · intro st'
    rcases hsi : st'.is_initialized with _ | _
    · simp [get_attack_paths, hsi]
    · have hcand : attack_path_candidates st' (11 / 10) = [] := by
        unfold attack_path_candidates
        rw [List.filterMap_eq_nil_iff]
        intro pr _
        have hle := risk_score_le_one st' pr.1 pr.2
        have hngt : ¬ ((detect_lateral_movement st' pr.1 pr.2).risk_score > 11 / 10) := by
          intro hgt
          have : (11 : ℚ) / 10 ≤ 1 := le_trans (le_of_lt hgt) hle
          norm_num at this
        simp [hngt]
      simp [get_attack_paths, hsi, hcand, List.insertionSort]

/-- Witness for C6 amended at the tie graph with threshold 0.3. -/
theorem get_attack_paths_spec_inst :
    ((get_attack_paths stTie (3 / 10)).map fun e => (e.source, e.target)).Perm
        ((pairsOf stTie.graph.nodes).filter
          (fun pr => decide ((detect_lateral_movement stTie pr.1 pr.2).risk_score > 3 / 10)))
    ∧ List.Sorted riskGE (get_attack_paths stTie (3 / 10))
    ∧ (∀ a b : String, a ≠ b → a ∈ stTie.graph.nodes → b ∈ stTie.graph.nodes →
        (pairsOf stTie.graph.nodes).count (a, b) + (pairsOf stTie.graph.nodes).count (b, a) = 1)
    ∧ (∀ st' : GState, get_attack_paths st' (11 / 10) = []) :=
  get_attack_paths_spec stTie (3 / 10) (by decide) (by decide)

/-- Closed form of `add_connection` on the existing-edge branch. -/
theorem add_connection_update_eq (st : GState) (a b t : String) (w : ℚ)
    (hinit : st.is_initialized = true) (hedge : st.graph.has_edge a b = true) :
    add_connection st a b t w
      = ⟨⟨st.graph.nodes, updateMatch a b w t st.graph.edges⟩, st.is_initialized⟩ := by
  simp [add_connection, hinit, hedge]

/-- C9: adding the same observation twice on a graph with no prior a–b edge
yields an a–b edge of weight `2w`, and the neighbor sequence of `a`
contains exactly one entry for `b`: node and edge identity are idempotent
while the weight is additive. -/
theorem add_connection_twice (st : GState) (a b t : String) (w : ℚ)
    (hinit : st.is_initialized = true) (hab : a ≠ b) (ha : a ≠ "") (hb : b ≠ "")
    (hno : st.graph.has_edge a b = false) :
    (add_connection (add_connection st a b t w) a b t w).graph.edgeWeight a b = 2 * w
    ∧ ((add_connection (add_connection st a b t w) a b t w).graph.neighbors a).count b
        = 1 := by
  have hnm := not_matching_of_has_edge_false hno
  have h1edges : (add_connection st a b t w).graph.edges
      = st.graph.edges ++ [(a, b, ⟨w, [t]⟩)] := by
    simp [add_connection, hinit, hno, add_edge_edges]
  have h1init : (add_connection st a b t w).is_initialized = true := by
    simp [add_connection, hinit, hno]
  have h1edge : (add_connection st a b t w).graph.has_edge a b = true := by
    simp [Graph.has_edge, h1edges, List.any_append, sameEdge_self]
  have h2edges : (add_connection (add_connection st a b t w) a b t w).graph.edges
      = st.graph.edges ++ [(a, b, ⟨w + w, [t]⟩)] := by
    rw [add_connection_update_eq (add_connection st a b t w) a b t w h1init h1edge]
    show updateMatch a b w t (add_connection st a b t w).graph.edges
        = st.graph.edges ++ [(a, b, ⟨w + w, [t]⟩)]
    rw [h1edges, updateMatch_append_left hnm]
    simp [updateMatch, sameEdge_self, insertType]
  constructor
  · show ((add_connection (add_connection st a b t w) a b t w).graph).edgeWeight a b
        = 2 * w
    unfold Graph.edgeWeight
    rw [h2edges, find?_append_left_none hnm]
    simp [sameEdge, two_mul]
  · show (Graph.neighbors ((add_connection (add_connection st a b t w) a b t w).graph) a).count b = 1
    unfold Graph.neighbors
    rw [h2edges, List.filterMap_append, List.count_append]
    have hzero : (st.graph.edges.filterMap fun e =>
        if e.1 = a then some e.2.1 else if e.2.1 = a then some e.1 else none).count b
        = 0 := by
      rw [List.count_eq_zero]
      exact neighbors_no_match (g := ⟨st.graph.nodes, st.graph.edges⟩) hnm
    rw [hzero]
    simp

/-- Witness for C9: two observations of A–B with weight 3 on the fresh
analyzer give edge weight 6 and a single B entry among A's neighbors. -/
theorem add_connection_twice_inst :
    (add_connection (add_connection g0 "A" "B" "login" 3) "A" "B" "login" 3).graph.edgeWeight "A" "B" = 2 * 3
    ∧ ((add_connection (add_connection g0 "A" "B" "login" 3) "A" "B" "login" 3).graph.neighbors "A").count "B"
        = 1 :=
  add_connection_twice g0 "A" "B" "login" 3 (by decide) (by decide) (by decide)
    (by decide) (by decide)

end RatArith
